import Mathlib

/-!
Verification of the clean-claude text cleaning pipeline.

The development shallowly embeds the core of the repository:

* `src/utils/cleaningRules.ts` — the ordered list of seven cleaning rules;
* `src/hooks/useTextCleaner.ts` — the pipeline driver folding the rules;
* the `useTextStats` hook — the statistics deriver.

Modelling decisions:

* JavaScript strings are modelled as `List Char` (Unicode scalar values).
* Regex `replace` calls are modelled by structural scanners so that every
  definition evaluates inside the kernel (`decide`/`rfl`).  Multiline (`m`)
  anchors `^`/`$` are boundaries at ECMAScript LineTerminator characters;
  `split('\n')` splits at `'\n'` only, exactly as in the source.
* `JSON.parse` / `JSON.stringify(·, null, 2)` are platform builtins; they are
  modelled for the JSON fragment exercised here: `null`, booleans, integer
  numbers (fraction, exponent and `\u` string escapes are outside the
  fragment and are rejected), strings with the short escapes, arrays and
  objects.  `JSON.stringify` pretty-prints with two-space indentation.
-/

set_option autoImplicit false

/-- JavaScript strings, modelled as lists of Unicode characters. -/
abbrev JStr := List Char

/-- The character class of the ECMAScript pattern `\s` (also the set trimmed
by `String.prototype.trim`). -/
def isJsWs (c : Char) : Bool :=
  c = ' ' || c = '\t' || c = '\n' || c = '\x0b' || c = '\x0c' || c = '\r' ||
  c = ' ' || c = ' ' || (' ' ≤ c && c ≤ ' ') ||
  c = ' ' || c = ' ' || c = ' ' || c = ' ' ||
  c = '　' || c = '﻿'

/-- ECMAScript LineTerminator characters: the line boundaries seen by the
multiline flag `m`. -/
def isLineTerm (c : Char) : Bool :=
  c = '\n' || c = '\r' || c = ' ' || c = ' '

/-- `text.split('\n')`: always returns at least one (possibly empty) piece. -/
def splitNl : JStr → List JStr
  | [] => [[]]
  | c :: rest =>
    if c = '\n' then [] :: splitNl rest
    else
      match splitNl rest with
      | [] => [[c]]
      | l :: ls => (c :: l) :: ls

/-- `lines.join('\n')`. -/
def joinNl : List JStr → JStr
  | [] => []
  | [l] => l
  | l :: ls => l ++ '\n' :: joinNl ls

/-- `text.trim()`. -/
def trimStr (s : JStr) : JStr :=
  ((s.dropWhile isJsWs).reverse.dropWhile isJsWs).reverse

/-- The character class `[─│┌┐└┘├┤┬┴┼╭╮╯╰╱╲╳]` of the box-drawing rule. -/
def boxChars : List Char :=
  ['─', '│', '┌', '┐', '└', '┘', '├', '┤', '┬', '┴', '┼',
   '╭', '╮', '╯', '╰', '╱', '╲', '╳']

/-- Whether `line.match(/^[─│┌┐└┘├┤┬┴┼╭╮╯╰╱╲╳]+$/)` succeeds: the line is
nonempty and consists only of characters of the class. -/
def isAllBox (l : JStr) : Bool :=
  !l.isEmpty && l.all (fun c => boxChars.contains c)

/-- `line.replace(/^[│├╰]\s*/, '')`. -/
def stripLeadFrame : JStr → JStr
  | [] => []
  | c :: rest =>
    if c = '│' || c = '├' || c = '╰' then rest.dropWhile isJsWs
    else c :: rest

/-- `line.replace(/\s*[│┤╮╯]$/, '')`. -/
def stripTrailFrame (l : JStr) : JStr :=
  match l.reverse with
  | [] => []
  | c :: rest =>
    if c = '│' || c = '┤' || c = '╮' || c = '╯' then
      (rest.dropWhile isJsWs).reverse
    else l

/-- Rule 1, `Remove box drawing`: drop lines made entirely of box-drawing
characters, then strip one leading and one trailing frame character (with
adjacent whitespace) from each remaining line. -/
def removeBoxDrawing (text : JStr) : JStr :=
  joinNl (((splitNl text).filter (fun l => !isAllBox l)).map
    (fun l => stripTrailFrame (stripLeadFrame l)))

/-- `line.replace(/^\s*\|\s*/, '')`. -/
def stripLeadPipe (l : JStr) : JStr :=
  match l.dropWhile isJsWs with
  | '|' :: rest => rest.dropWhile isJsWs
  | _ => l

/-- `line.replace(/\s*\|\s*$/, '')`. -/
def stripTrailPipe (l : JStr) : JStr :=
  match l.reverse.dropWhile isJsWs with
  | '|' :: rest => (rest.dropWhile isJsWs).reverse
  | _ => l

/-- Rule 3, `Remove pipe symbols`: per line, strip one leading and one
trailing pipe together with its surrounding whitespace. -/
def removePipeSymbols (text : JStr) : JStr :=
  joinNl ((splitNl text).map (fun l => stripTrailPipe (stripLeadPipe l)))

/-- Scanner of `line.replace(/\s+/g, ' ')`: a maximal whitespace run becomes
one space; `prevWs` records whether the previous character was whitespace. -/
def collapseWsGo (prevWs : Bool) : JStr → JStr
  | [] => []
  | c :: rest =>
    if isJsWs c then
      if prevWs then collapseWsGo true rest
      else ' ' :: collapseWsGo true rest
    else c :: collapseWsGo false rest

/-- `line.replace(/\s+/g, ' ')`. -/
def collapseWs (l : JStr) : JStr := collapseWsGo false l

/-- Rule 4, `Fix indentation`: per line, collapse whitespace runs to single
spaces and trim the line. -/
def fixIndentation (text : JStr) : JStr :=
  joinNl ((splitNl text).map (fun l => trimStr (collapseWs l)))

/-- State of the scanner for `text.replace(/\x1b\[[0-9;]*m/g, '')`:
scanning normally, just saw the escape character, or inside the digit run
(accumulated in reverse, to be flushed if the match fails). -/
inductive AnsiSt where
  | norm : AnsiSt
  | esc : AnsiSt
  | digs (ds : JStr) : AnsiSt

/-- Scanner for `text.replace(/\x1b\[[0-9;]*m/g, '')`. -/
def ansiGo : AnsiSt → JStr → JStr
  | AnsiSt.norm, [] => []
  | AnsiSt.esc, [] => ['\x1b']
  | AnsiSt.digs ds, [] => '\x1b' :: '[' :: ds.reverse
  | AnsiSt.norm, c :: rest =>
    if c = '\x1b' then ansiGo AnsiSt.esc rest
    else c :: ansiGo AnsiSt.norm rest
  | AnsiSt.esc, c :: rest =>
    if c = '[' then ansiGo (AnsiSt.digs []) rest
    else if c = '\x1b' then '\x1b' :: ansiGo AnsiSt.esc rest
    else '\x1b' :: c :: ansiGo AnsiSt.norm rest
  | AnsiSt.digs ds, c :: rest =>
    if c.isDigit || c = ';' then ansiGo (AnsiSt.digs (c :: ds)) rest
    else if c = 'm' then ansiGo AnsiSt.norm rest
    else if c = '\x1b' then '\x1b' :: '[' :: ds.reverse ++ ansiGo AnsiSt.esc rest
    else '\x1b' :: '[' :: ds.reverse ++ c :: ansiGo AnsiSt.norm rest

/-- First substitution of rule 5: delete ANSI SGR escape sequences. -/
def stripAnsi (text : JStr) : JStr := ansiGo AnsiSt.norm text

/-- Scanner for `text.replace(/^[$>]\s*/gm, '')`.  When `skipping`, the
`\s*` of a match is being deleted and `flag` records whether the last
deleted character was a LineTerminator (so `^` can match again); otherwise
`flag` records whether the scanner is at a `^` position. -/
def promptGo (skipping : Bool) (flag : Bool) : JStr → JStr
  | [] => []
  | c :: rest =>
    if skipping then
      if isJsWs c then promptGo true (isLineTerm c) rest
      else if flag && (c = '$' || c = '>') then promptGo true false rest
      else c :: promptGo false (isLineTerm c) rest
    else
      if flag && (c = '$' || c = '>') then promptGo true false rest
      else c :: promptGo false (isLineTerm c) rest

/-- Second substitution of rule 5: delete a prompt marker at line starts. -/
def stripPrompts (text : JStr) : JStr := promptGo false true text

/-- ASCII lowercasing, the canonicalisation of the case-insensitive flag for
the letters appearing in `bash|sh|cmd|powershell`. -/
def lowerAscii (c : Char) : Char :=
  if 'A' ≤ c && c ≤ 'Z' then Char.ofNat (c.toNat + 32) else c

/-- Dispatch on the first letter of the alternation `bash|sh|cmd|powershell`
(the four words start with distinct letters); returns the remaining expected
characters including the colon. -/
def shellTail (c : Char) : Option JStr :=
  if lowerAscii c = 'b' then some ['a', 's', 'h', ':']
  else if lowerAscii c = 's' then some ['h', ':']
  else if lowerAscii c = 'c' then some ['m', 'd', ':']
  else if lowerAscii c = 'p' then
    some ['o', 'w', 'e', 'r', 's', 'h', 'e', 'l', 'l', ':']
  else none

/-- State of the scanner for
`text.replace(/^(bash|sh|cmd|powershell):\s*/gim, '')`: scanning normally
(`atStart`: at a `^` position), matching a shell word (`buf`: consumed
characters in reverse, flushed on mismatch; `exp`: characters still
expected), or deleting the `\s*` of a completed match (`prevTerm`: the last
deleted character was a LineTerminator). -/
inductive ShSt where
  | norm (atStart : Bool) : ShSt
  | expect (buf : JStr) (exp : JStr) : ShSt
  | skipws (prevTerm : Bool) : ShSt

/-- Scanner for `text.replace(/^(bash|sh|cmd|powershell):\s*/gim, '')`. -/
def shellGo : ShSt → JStr → JStr
  | ShSt.norm _, [] => []
  | ShSt.skipws _, [] => []
  | ShSt.expect buf _, [] => buf.reverse
  | ShSt.norm atStart, c :: rest =>
    if atStart then
      match shellTail c with
      | some e => shellGo (ShSt.expect [c] e) rest
      | none => c :: shellGo (ShSt.norm (isLineTerm c)) rest
    else c :: shellGo (ShSt.norm (isLineTerm c)) rest
  | ShSt.expect buf e, c :: rest =>
    match e with
    | [] => buf.reverse ++ c :: shellGo (ShSt.norm (isLineTerm c)) rest
    | x :: e2 =>
      if lowerAscii c = x then
        if e2.isEmpty then shellGo (ShSt.skipws false) rest
        else shellGo (ShSt.expect (c :: buf) e2) rest
      else buf.reverse ++ c :: shellGo (ShSt.norm (isLineTerm c)) rest
  | ShSt.skipws prevTerm, c :: rest =>
    if isJsWs c then shellGo (ShSt.skipws (isLineTerm c)) rest
    else if prevTerm then
      match shellTail c with
      | some e => shellGo (ShSt.expect [c] e) rest
      | none => c :: shellGo (ShSt.norm (isLineTerm c)) rest
    else c :: shellGo (ShSt.norm (isLineTerm c)) rest

/-- Third substitution of rule 5: delete shell-name labels at line starts. -/
def stripShellLabels (text : JStr) : JStr := shellGo (ShSt.norm true) text

/-- Rule 5, `Remove terminal artifacts`: the three substitutions in order. -/
def removeTerminalArtifacts (text : JStr) : JStr :=
  stripShellLabels (stripPrompts (stripAnsi text))

/-- Number of newline characters in a list. -/
def countNl (l : JStr) : Nat := l.count '\n'

/-- Replacement applied to a maximal whitespace run by
`text.replace(/\n\s*\n\s*\n/g, '\n\n')`: when the run holds at least three
newlines, the stretch from its first to its last newline becomes two
newlines; otherwise the run is kept. -/
def blankFlush (buf : JStr) : JStr :=
  if 3 ≤ countNl buf then
    buf.takeWhile (fun c => c ≠ '\n') ++ '\n' :: '\n' ::
      (buf.reverse.takeWhile (fun c => c ≠ '\n')).reverse
  else buf

/-- Scanner for `text.replace(/\n\s*\n\s*\n/g, '\n\n')`: whitespace runs are
buffered and flushed through `blankFlush`. -/
def blankGo (buf : JStr) : JStr → JStr
  | [] => blankFlush buf
  | c :: rest =>
    if isJsWs c then blankGo (buf ++ [c]) rest
    else blankFlush buf ++ c :: blankGo [] rest

/-- Rule 6, `Clean extra blank lines`. -/
def cleanExtraBlankLines (text : JStr) : JStr := blankGo [] text

/-- Rule 7, `Trim whitespace`: `text.trim()`. -/
def trimWhitespace (text : JStr) : JStr := trimStr text

/-- Whether the tail pattern `.*?\]"?\]?$` can match a line remainder: the
remainder must end in `]`, `]"`, `]]` or `]"]`, that is, end in `]` or in
`]"`. -/
def tailOkJson (r : JStr) : Bool :=
  match r.reverse with
  | ']' :: _ => true
  | '"' :: ']' :: _ => true
  | _ => false

/-- The four ways the optional `\[?"?` opening can be instantiated. -/
def jsonOpenings : List JStr := [['[', '"'], ['['], ['"'], []]

/-- Whether `\[?"?\[.*?\]"?\]?` matches a whole line remainder: one of the
four optional openings followed by the mandatory `[`, with a matching
tail. -/
def matchBody (b : JStr) : Bool :=
  jsonOpenings.any (fun o =>
    (o ++ ['[']).isPrefixOf b && tailOkJson (b.drop (o.length + 1)))

/-- The literal label of rule 2's pattern. -/
def tsLit : JStr :=
  ['t', 'e', 'm', 'p', 'l', 'a', 't', 'e', '_', 's', 'u', 'f', 'f',
   'i', 'x', 'e', 's']

/-- Anchored match of `^(\s*template_suffixes\s*)?(\[?"?\[.*?\]"?\]?)$`
against one line; returns the two capture groups (prefix, jsonContent), the
prefix being empty when the optional group is absent. -/
def matchJsonLine (l : JStr) : Option (JStr × JStr) :=
  let ws1 := l.takeWhile isJsWs
  let r1 := l.dropWhile isJsWs
  if tsLit.isPrefixOf r1 then
    let r2 := r1.drop tsLit.length
    let ws2 := r2.takeWhile isJsWs
    let body := r2.dropWhile isJsWs
    if matchBody body then some (ws1 ++ tsLit ++ ws2, body)
    else if matchBody l then some ([], l)
    else none
  else if matchBody l then some ([], l)
  else none

/-- JSON values, for the fragment of `JSON.parse` exercised by rule 2. -/
inductive JVal where
  | jnull : JVal
  | jbool (b : Bool) : JVal
  | jnum (n : Int) : JVal
  | jstr (s : JStr) : JVal
  | jarr (elems : List JVal) : JVal
  | jobj (fields : List (JStr × JVal)) : JVal

/-- Scan of a JSON string body after the opening quote; yields the decoded
content and the rest of the input.  The `\u` escape is outside the modelled
fragment and rejected. -/
def jsStrScan : JStr → Option (JStr × JStr)
  | [] => none
  | '"' :: rest => some ([], rest)
  | '\\' :: e :: rest =>
    (match e with
     | '"' => some '"'
     | '\\' => some '\\'
     | '/' => some '/'
     | 'b' => some '\x08'
     | 'f' => some '\x0c'
     | 'n' => some '\n'
     | 'r' => some '\r'
     | 't' => some '\t'
     | _ => (none : Option Char)).bind
      (fun c => (jsStrScan rest).map (fun (p : JStr × JStr) => (c :: p.1, p.2)))
  | c :: rest =>
    if c.toNat < 32 then none
    else (jsStrScan rest).map (fun (p : JStr × JStr) => (c :: p.1, p.2))

/-- Decimal value of a digit list. -/
def digitsToNat (ds : JStr) : Nat :=
  ds.foldl (fun acc c => acc * 10 + (c.toNat - 48)) 0

/-- Scan of an unsigned JSON number; leading zeros are rejected as in JSON,
and fraction or exponent forms are outside the modelled fragment. -/
def numScan (s : JStr) : Option (Nat × JStr) :=
  let ds := s.takeWhile Char.isDigit
  let rest := s.drop ds.length
  if ds.isEmpty then none
  else if 1 < ds.length && ds.head? = some '0' then none
  else
    match rest with
    | '.' :: _ => none
    | 'e' :: _ => none
    | 'E' :: _ => none
    | _ => some (digitsToNat ds, rest)

/-- JSON insignificant whitespace. -/
def skipJsonWs (s : JStr) : JStr :=
  s.dropWhile (fun c => c = ' ' || c = '\t' || c = '\n' || c = '\r')

/-- Result of one step of the JSON reader: a value, the remaining elements
of an array, or the remaining fields of an object. -/
inductive PRes where
  | v (x : JVal) : PRes
  | elems (xs : List JVal) : PRes
  | fields (xs : List (JStr × JVal)) : PRes

/-- What the JSON reader is asked to read next. -/
inductive PKind where
  | val : PKind
  | arrTail : PKind
  | objTail : PKind

/-- Fuelled JSON reader; the fuel only bounds nesting depth and is
instantiated with the input length, which always suffices. -/
def jsonGo : Nat → PKind → JStr → Option (PRes × JStr)
  | 0, _, _ => none
  | Nat.succ n, PKind.val, s0 =>
    match skipJsonWs s0 with
    | 'n' :: 'u' :: 'l' :: 'l' :: rest => some (PRes.v JVal.jnull, rest)
    | 't' :: 'r' :: 'u' :: 'e' :: rest => some (PRes.v (JVal.jbool true), rest)
    | 'f' :: 'a' :: 'l' :: 's' :: 'e' :: rest =>
      some (PRes.v (JVal.jbool false), rest)
    | '"' :: rest =>
      (jsStrScan rest).map (fun (p : JStr × JStr) => (PRes.v (JVal.jstr p.1), p.2))
    | '[' :: rest =>
      (match skipJsonWs rest with
       | ']' :: rest2 => some (PRes.v (JVal.jarr []), rest2)
       | r =>
         (jsonGo n PKind.val r).bind (fun p =>
           match p.1 with
           | PRes.v x =>
             (jsonGo n PKind.arrTail p.2).bind (fun q =>
               match q.1 with
               | PRes.elems xs => some (PRes.v (JVal.jarr (x :: xs)), q.2)
               | _ => none)
           | _ => none))
    | '{' :: rest =>
      (match skipJsonWs rest with
       | '}' :: rest2 => some (PRes.v (JVal.jobj []), rest2)
       | '"' :: rest2 =>
         (jsStrScan rest2).bind (fun kp =>
           match skipJsonWs kp.2 with
           | ':' :: rest3 =>
             (jsonGo n PKind.val rest3).bind (fun p =>
               match p.1 with
               | PRes.v x =>
                 (jsonGo n PKind.objTail p.2).bind (fun q =>
                   match q.1 with
                   | PRes.fields xs =>
                     some (PRes.v (JVal.jobj ((kp.1, x) :: xs)), q.2)
                   | _ => none)
               | _ => none)
           | _ => none)
       | _ => none)
    | '-' :: rest =>
      (numScan rest).map (fun p => (PRes.v (JVal.jnum (-(p.1 : Int))), p.2))
    | c :: _ =>
      if c.isDigit then
        (numScan (skipJsonWs s0)).map (fun p => (PRes.v (JVal.jnum (p.1 : Int)), p.2))
      else none
    | [] => none
  | Nat.succ n, PKind.arrTail, s0 =>
    match skipJsonWs s0 with
    | ']' :: rest => some (PRes.elems [], rest)
    | ',' :: rest =>
      (jsonGo n PKind.val rest).bind (fun p =>
        match p.1 with
        | PRes.v x =>
          (jsonGo n PKind.arrTail p.2).bind (fun q =>
            match q.1 with
            | PRes.elems xs => some (PRes.elems (x :: xs), q.2)
            | _ => none)
        | _ => none)
    | _ => none
  | Nat.succ n, PKind.objTail, s0 =>
    match skipJsonWs s0 with
    | '}' :: rest => some (PRes.fields [], rest)
    | ',' :: rest =>
      (match skipJsonWs rest with
       | '"' :: rest2 =>
         (jsStrScan rest2).bind (fun kp =>
           match skipJsonWs kp.2 with
           | ':' :: rest3 =>
             (jsonGo n PKind.val rest3).bind (fun p =>
               match p.1 with
               | PRes.v x =>
                 (jsonGo n PKind.objTail p.2).bind (fun q =>
                   match q.1 with
                   | PRes.fields xs => some (PRes.fields ((kp.1, x) :: xs), q.2)
                   | _ => none)
               | _ => none)
           | _ => none)
       | _ => none)
    | _ => none

/-- `JSON.parse`, modelled for the fragment described above: the whole input
must be consumed up to trailing whitespace. -/
def jsonParse (s : JStr) : Option JVal :=
  match jsonGo (s.length + 1) PKind.val s with
  | some (PRes.v x, rest) => if (skipJsonWs rest).isEmpty then some x else none
  | _ => none

/-- Hexadecimal digit, lowercase. -/
def hexDigit (n : Nat) : Char :=
  if n < 10 then Char.ofNat (48 + n) else Char.ofNat (87 + n)

/-- Escaping of one character by `JSON.stringify`. -/
def escJsonChar (c : Char) : JStr :=
  if c = '"' then ['\\', '"']
  else if c = '\\' then ['\\', '\\']
  else if c = '\x08' then ['\\', 'b']
  else if c = '\t' then ['\\', 't']
  else if c = '\n' then ['\\', 'n']
  else if c = '\x0c' then ['\\', 'f']
  else if c = '\r' then ['\\', 'r']
  else if c.toNat < 32 then
    ['\\', 'u', '0', '0', hexDigit (c.toNat / 16), hexDigit (c.toNat % 16)]
  else [c]

/-- Serialisation of a JSON string. -/
def serStr (s : JStr) : JStr := '"' :: (s.map escJsonChar).flatten ++ ['"']

/-- Concatenation with a separator. -/
def joinSep (sep : JStr) : List JStr → JStr
  | [] => []
  | [x] => x
  | x :: xs => x ++ sep ++ joinSep sep xs

/-- `JSON.stringify(v, null, 2)`; the second argument is the current
indentation, the fuel only bounds nesting depth. -/
def serJson : Nat → JVal → JStr → JStr
  | _, JVal.jnull, _ => ['n', 'u', 'l', 'l']
  | _, JVal.jbool b, _ =>
    if b then ['t', 'r', 'u', 'e'] else ['f', 'a', 'l', 's', 'e']
  | _, JVal.jnum n, _ =>
    if n < 0 then '-' :: (Nat.repr n.natAbs).data else (Nat.repr n.natAbs).data
  | _, JVal.jstr s, _ => serStr s
  | 0, JVal.jarr _, _ => []
  | 0, JVal.jobj _, _ => []
  | Nat.succ fu, JVal.jarr xs, ind =>
    match xs with
    | [] => ['[', ']']
    | _ =>
      let ind2 := ind ++ [' ', ' ']
      '[' :: '\n' ::
        joinSep [',', '\n'] (xs.map (fun x => ind2 ++ serJson fu x ind2)) ++
        '\n' :: ind ++ [']']
  | Nat.succ fu, JVal.jobj fs, ind =>
    match fs with
    | [] => ['\x7b', '\x7d']
    | _ =>
      let ind2 := ind ++ [' ', ' ']
      '\x7b' :: '\n' ::
        joinSep [',', '\n']
          (fs.map (fun f => ind2 ++ serStr f.1 ++ ':' :: ' ' :: serJson fu f.2 ind2)) ++
        '\n' :: ind ++ ['\x7d']

/-- `jsonContent.replace(/^"/, '').replace(/"$/, '')`. -/
def stripWrapQuotes (b : JStr) : JStr :=
  let b1 :=
    match b with
    | '"' :: rest => rest
    | _ => b
  match b1.reverse with
  | '"' :: rest => rest.reverse
  | _ => b1

/-- `.replace(/\\"/g, '"')`. -/
def unescBsQuote : JStr → JStr
  | [] => []
  | '\\' :: '"' :: rest => '"' :: unescBsQuote rest
  | c :: rest => c :: unescBsQuote rest

/-- `.replace(/""/g, '"')`. -/
def unescDoubleQuote : JStr → JStr
  | [] => []
  | '"' :: '"' :: rest => '"' :: unescDoubleQuote rest
  | c :: rest => c :: unescDoubleQuote rest

/-- `.replace(/"\[/g, '[')`. -/
def dropQuoteBeforeBracket : JStr → JStr
  | [] => []
  | '"' :: '[' :: rest => '[' :: dropQuoteBeforeBracket rest
  | c :: rest => c :: dropQuoteBeforeBracket rest

/-- `.replace(/\]"/g, ']')`. -/
def dropQuoteAfterBracket : JStr → JStr
  | [] => []
  | ']' :: '"' :: rest => ']' :: dropQuoteAfterBracket rest
  | c :: rest => c :: dropQuoteAfterBracket rest

/-- The unwrapping and unescaping applied to group 2 before parsing. -/
def cleanJsonOf (body : JStr) : JStr :=
  unescDoubleQuote (unescBsQuote (stripWrapQuotes body))

/-- The catch branch of rule 2, applied to the full match. -/
def jsonFallback (m : JStr) : JStr :=
  dropQuoteAfterBracket (dropQuoteBeforeBracket (unescDoubleQuote (unescBsQuote m)))

/-- Rule 2's replacer on one line: on a match, unwrap and parse; on success
pretty-print (reattaching a present label trimmed, with a colon); on parse
failure fall back to the cosmetic cleanup of the match. -/
def cleanJsonLine (l : JStr) : JStr :=
  match matchJsonLine l with
  | none => l
  | some (pre, body) =>
    match jsonParse (cleanJsonOf body) with
    | some v =>
      let formatted := serJson (body.length + 1) v []
      if pre.isEmpty then formatted
      else trimStr pre ++ ':' :: ' ' :: formatted
    | none => jsonFallback l

/-- Applies `f` to every LineTerminator-delimited segment of the text (the
`^...$` anchors of a `gm` regex bound matches to such segments); `acc` is
the current segment in reverse. -/
def segGo (f : JStr → JStr) (acc : JStr) : JStr → JStr
  | [] => f acc.reverse
  | c :: rest =>
    if isLineTerm c then f acc.reverse ++ c :: segGo f [] rest
    else segGo f (c :: acc) rest

/-- Rule 2, `Clean JSON arrays`. -/
def cleanJsonArrays (text : JStr) : JStr := segGo cleanJsonLine [] text

/-- A cleaning rule of the catalog. -/
structure CleaningRule where
  name : String
  description : String
  apply : JStr → JStr

/-- The ordered rule catalog of `cleaningRules.ts`. -/
def cleaningRules : List CleaningRule :=
  [{ name := "Remove box drawing",
     description := "Removes terminal box drawing characters",
     apply := removeBoxDrawing },
   { name := "Clean JSON arrays",
     description := "Formats JSON arrays with escaped quotes",
     apply := cleanJsonArrays },
   { name := "Remove pipe symbols",
     description := "Removes pipe symbols from line starts and ends",
     apply := removePipeSymbols },
   { name := "Fix indentation",
     description := "Normalizes indentation and removes excessive spaces",
     apply := fixIndentation },
   { name := "Remove terminal artifacts",
     description := "Cleans common terminal formatting",
     apply := removeTerminalArtifacts },
   { name := "Clean extra blank lines",
     description := "Reduces multiple blank lines to single blank lines",
     apply := cleanExtraBlankLines },
   { name := "Trim whitespace",
     description := "Removes leading and trailing whitespace",
     apply := trimWhitespace }]

/-- The rule loop of `useTextCleaner`, without the empty-input guard. -/
def applyAllRules (text : JStr) : JStr :=
  cleaningRules.foldl (fun acc r => r.apply acc) text

/-- The `useTextCleaner` hook: `none` models a null or undefined input, and
the guard `if (!input) return ''` also catches the empty string. -/
def useTextCleaner (input : Option JStr) : JStr :=
  match input with
  | none => []
  | some s => if s.isEmpty then [] else applyAllRules s

/-- The statistics record of the `useTextStats` hook. -/
structure TextStats where
  lines : Nat
  characters : Nat
  cleaned : Int
deriving DecidableEq

/-- The `useTextStats` hook. -/
def useTextStats (original cleaned : JStr) : TextStats :=
  { lines := (splitNl original).length
    characters := original.length
    cleaned := (original.length : Int) - (cleaned.length : Int) }

/-- Whether a line would lose its head to the box rule's leading strip. -/
def isLeadFrame (o : Option Char) : Bool :=
  match o with
  | some c => c = '│' || c = '├' || c = '╰'
  | none => false

/-- Whether a line would lose its last character to the trailing strip. -/
def isTrailFrame (o : Option Char) : Bool :=
  match o with
  | some c => c = '│' || c = '┤' || c = '╮' || c = '╯'
  | none => false

/-- A line the box-drawing rule leaves alone. -/
def boxLineOk (l : JStr) : Bool :=
  !isAllBox l && !isLeadFrame l.head? && !isTrailFrame l.getLast?

/-- A line the pipe rule leaves alone: its first and last non-whitespace
characters are not pipes. -/
def pipeLineOk (l : JStr) : Bool :=
  ((l.dropWhile isJsWs).head? != some '|') &&
  ((l.reverse.dropWhile isJsWs).head? != some '|')

/-- No two adjacent spaces. -/
def noDoubleSpace : JStr → Bool
  | [] => true
  | [_] => true
  | c :: d :: rest => !(c = ' ' && d = ' ') && noDoubleSpace (d :: rest)

/-- A line the indentation rule leaves alone: its whitespace characters are
single interior spaces. -/
def lineNormal (l : JStr) : Bool :=
  l.all (fun c => !isJsWs c || c = ' ') && noDoubleSpace l &&
  (l.head? != some ' ') && (l.getLast? != some ' ')

/-- Whether the first character, if any, is non-whitespace. -/
def headNonWs (t : JStr) : Bool :=
  match t.head? with
  | some c => !isJsWs c
  | none => true

/-- Scan of the positions where `^[$>]\s*` could fire: no line may start
with a prompt marker. -/
def promptCheck (fl : Bool) : JStr → Bool
  | [] => true
  | c :: rest =>
    (if fl then !(c = '$' || c = '>') else true) && promptCheck (isLineTerm c) rest

/-- Whether `(bash|sh|cmd|powershell):` matches case-insensitively at the
start of a position. -/
def shellHit (s : JStr) : Bool :=
  match s with
  | [] => false
  | c :: r =>
    match shellTail c with
    | none => false
    | some e => e.isPrefixOf (r.map lowerAscii)

/-- Scan of the positions where the shell-label pattern could fire. -/
def shellCheck (fl : Bool) : JStr → Bool
  | [] => true
  | c :: rest => (if fl then !shellHit (c :: rest) else true) &&
      shellCheck (isLineTerm c) rest

/-- Scan of the runs `\n\s*\n\s*\n` could match: at every newline, the
whitespace run from it holds at most two newlines. -/
def noBlankRuns : JStr → Bool
  | [] => true
  | c :: rest =>
    (if c = '\n' then decide (countNl ((c :: rest).takeWhile isJsWs) ≤ 2)
     else true) && noBlankRuns rest

/-- The conjunction of a segment predicate over every LineTerminator
segment, mirroring the recursion of the segment mapper. -/
def segAll (p : JStr → Bool) (acc : JStr) : JStr → Bool
  | [] => p acc.reverse
  | c :: rest =>
    if isLineTerm c then p acc.reverse && segAll p [] rest
    else segAll p (c :: acc) rest

/-- The steady state of the pipeline: a decidable syntactic description of
cleaned output in which no rule has anything left to do.  Each conjunct
corresponds to one rule of the catalog. -/
def steady (t : JStr) : Bool :=
  (splitNl t).all boxLineOk &&
  segAll (fun l => (matchJsonLine l).isNone) [] t &&
  (splitNl t).all pipeLineOk &&
  (splitNl t).all lineNormal &&
  t.all (fun c => !(c = '\x1b')) &&
  promptCheck true t &&
  shellCheck true t &&
  noBlankRuns t &&
  headNonWs t && headNonWs t.reverse

theorem splitNl_ne_nil (s : JStr) : splitNl s ≠ [] := by
  match s with
  | [] => simp [splitNl]
  | c :: rest =>
    simp only [splitNl]
    split
    · simp
    · split <;> simp

theorem splitNl_length (s : JStr) : (splitNl s).length = s.count '\n' + 1 := by
  induction s with
  | nil => simp [splitNl]
  | cons c rest ih =>
    simp only [splitNl]
    by_cases h : c = '\n'
    · subst h
      simp [List.count_cons, ih]
    · rw [if_neg h]
      cases hs : splitNl rest with
      | nil => exact absurd hs (splitNl_ne_nil rest)
      | cons l ls =>
        rw [hs] at ih
        simp only [List.length_cons] at ih ⊢
        rw [List.count_cons]
        simp [h, Ne.symm h] at ih ⊢
        omega

theorem splitNl_eq_single (s : JStr) (h : '\n' ∉ s) : splitNl s = [s] := by
  induction s with
  | nil => rfl
  | cons c rest ih =>
    simp only [List.mem_cons, not_or] at h
    simp only [splitNl]
    rw [if_neg (fun hc => h.1 hc.symm), ih h.2]

/-- C1: the full pipeline cleans the framed, ANSI-coloured prompt sample
down to exactly the word test. -/
theorem c1_end_to_end :
    useTextCleaner (some ("┌────┐\n│ \x1b[32m$ test\x1b[0m │\n└────┘".data)) =
      ("test".data) := by decide

/-- C9: the pipe rule strips exactly one leading and one trailing pipe per
line, leaves interior pipes alone, and reduces an all-pipe line to a single
pipe. -/
theorem c9_pipe_rule_examples :
    removePipeSymbols ("| Content here |".data) = ("Content here".data) ∧
    removePipeSymbols ("Command | grep pattern | sort".data) =
      ("Command | grep pattern | sort".data) ∧
    removePipeSymbols ("|  |  |".data) = ("|".data) :=
  ⟨by decide, by decide, by decide⟩

/-- C7: useTextStats returns the newline count plus one (hence at least
one), the original length, and the signed length difference; in particular
the concrete example of the specification evaluates as stated. -/
theorem c7_useTextStats_spec :
    (∀ o c : JStr,
      (useTextStats o c).lines = o.count '\n' + 1 ∧
      1 ≤ (useTextStats o c).lines ∧
      (useTextStats o c).characters = o.length ∧
      (useTextStats o c).cleaned = (o.length : Int) - (c.length : Int)) ∧
    useTextStats ("abc\ndef".data) ("abcdef".data) =
      { lines := 2, characters := 7, cleaned := 1 } := by
  constructor
  · intro o c
    refine ⟨?_, ?_, rfl, rfl⟩
    · exact splitNl_length o
    · show 1 ≤ (splitNl o).length
      rw [splitNl_length o]
      omega
  · decide

/-- C10: only the newline character delimits lines: a lone carriage return
is not counted by the line counter, the whitespace rule turns it into a
single space, and a trailing carriage return of a CRLF ending is trimmed
away by the same rule. -/
theorem c10_newline_only_delimiter :
    (∀ c : JStr, (useTextStats ("a\rb".data) c).lines = 1) ∧
    useTextCleaner (some ("a\rb".data)) = ("a b".data) ∧
    fixIndentation ("x\r\ny".data) = ("x\ny".data) :=
  ⟨fun _ => rfl, by decide, by decide⟩

/-- C4 counterexample: a line of double-line box characters U+2550 is not
deleted by the box-drawing rule, contradicting the claim that every line of
characters from the whole Unicode box-drawing block is deleted. -/
theorem c4_counterexample :
    removeBoxDrawing ("═══".data) = ("═══".data) ∧ ("═══".data : JStr) ≠ [] :=
  ⟨by decide, by decide⟩

/-- C4 amended: the box-drawing rule deletes every nonempty line whose
characters all come from the rule's eighteen-character class (not the whole
box-drawing block), and a framed content line reduces to its content. -/
theorem c4_box_rule_amended :
    (∀ l : JStr, l ≠ [] → (∀ c ∈ l, c ∈ boxChars) → removeBoxDrawing l = []) ∧
    removeBoxDrawing ("│ Content │".data) = ("Content".data) := by
  constructor
  · intro l hne hall
    have hnl : '\n' ∉ l := fun hm => absurd (hall _ hm) (by decide)
    unfold removeBoxDrawing
    rw [splitNl_eq_single l hnl]
    have hbox : isAllBox l = true := by
      unfold isAllBox
      rw [Bool.and_eq_true]
      constructor
      · cases l with
        | nil => exact absurd rfl hne
        | cons c r => rfl
      · rw [List.all_eq_true]
        intro c hc
        simp [List.contains, List.elem_eq_mem, hall c hc]
    simp [hbox, joinNl]
  · decide

/-- Witness for the amended box-drawing theorem at a concrete all-box line. -/
theorem c4_box_rule_amended_witness : removeBoxDrawing ("┌┐".data) = [] :=
  c4_box_rule_amended.1 ("┌┐".data) (by decide) (by decide)

/-- C3 counterexample: a line with the label options and parseable bracketed
content is left unchanged by the JSON-array rule, contradicting the claim
that any key-name label is matched and rewritten. -/
theorem c3_counterexample :
    cleanJsonArrays ("options \"[1]\"".data) = ("options \"[1]\"".data) ∧
    cleanJsonArrays ("options \"[1]\"".data) ≠ ("options: [\n  1\n]".data) :=
  ⟨by decide, by decide⟩

/-- C3 amended: the optional label of the JSON-array rule is precisely the
literal template_suffixes: with that label a quoted array line with escaped
quotes is rewritten to the label, a colon and the pretty-printed JSON, while
the same content under another label is left unchanged. -/
theorem c3_json_label_amended :
    cleanJsonArrays ("template_suffixes \"[\\\".html\\\", \\\".js\\\"]\"".data) =
      ("template_suffixes: [\n  \".html\",\n  \".js\"\n]".data) ∧
    cleanJsonArrays ("options \"[\\\".html\\\", \\\".js\\\"]\"".data) =
      ("options \"[\\\".html\\\", \\\".js\\\"]\"".data) :=
  ⟨by decide, by decide⟩

/-- C6: when a matched line's unwrapped content fails to parse as JSON, rule
2 returns the cosmetic fallback cleanup of the match instead of propagating
any failure (the rule is total by construction). -/
theorem c6_parse_failure_fallback (l pre body : JStr)
    (hm : matchJsonLine l = some (pre, body))
    (hp : jsonParse (cleanJsonOf body) = none) :
    cleanJsonLine l = jsonFallback l := by
  simp only [cleanJsonLine, hm, hp]

/-- Witness: a malformed bracketed line is matched, fails to parse, and is
rewritten by the fallback cleanup. -/
theorem c6_parse_failure_fallback_witness :
    cleanJsonLine ("[.html]".data) = jsonFallback ("[.html]".data) :=
  c6_parse_failure_fallback ("[.html]".data) [] ("[.html]".data) rfl rfl

/-- C8: the pipeline maps empty and absent input to the empty string, and
the guard is pure optimisation: the guarded pipeline agrees with the plain
fold of all seven rules on every input, because every rule maps the empty
string to itself. -/
theorem c8_empty_guard_refinement :
    useTextCleaner none = [] ∧
    useTextCleaner (some []) = [] ∧
    (∀ s : JStr, useTextCleaner (some s) = applyAllRules s) ∧
    cleaningRules.all (fun r => r.apply [] == []) = true := by
  refine ⟨rfl, rfl, fun s => ?_, by decide⟩
  cases s with
  | nil => decide
  | cons c rest => rfl

theorem count_dropWhile_ws (c : Char) (hws : isJsWs c = false) (l : JStr) :
    (l.dropWhile isJsWs).count c = l.count c := by
  conv_rhs => rw [← List.takeWhile_append_dropWhile isJsWs l]
  rw [List.count_append]
  have h0 : (l.takeWhile isJsWs).count c = 0 := by
    rw [List.count_eq_zero]
    intro hm
    rw [List.mem_takeWhile_imp hm] at hws
    cases hws
  omega

theorem count_trimStr (c : Char) (hws : isJsWs c = false) (l : JStr) :
    (trimStr l).count c = l.count c := by
  unfold trimStr
  rw [List.count_reverse, count_dropWhile_ws c hws, List.count_reverse,
    count_dropWhile_ws c hws]

theorem count_eq_zero_of_all_ws (c : Char) (hws : isJsWs c = false) (l : JStr)
    (h : ∀ x ∈ l, isJsWs x = true) : l.count c = 0 := by
  rw [List.count_eq_zero]
  intro hm
  rw [h c hm] at hws
  cases hws

theorem joinNl_count (c : Char) (h : c ≠ '\n') :
    ∀ ls : List JStr, (joinNl ls).count c = (ls.map (fun l => l.count c)).sum
  | [] => by simp [joinNl]
  | [l] => by simp [joinNl]
  | l :: l2 :: t => by
    have ih := joinNl_count c h (l2 :: t)
    simp only [joinNl, List.count_append, List.count_cons, List.map_cons,
      List.sum_cons] at ih ⊢
    have hb : ('\n' == c) = false := by
      simp [h, Ne.symm h]
    rw [hb] at *
    simp at ih ⊢
    omega

theorem splitNl_count (c : Char) (h : c ≠ '\n') (s : JStr) :
    ((splitNl s).map (fun l => l.count c)).sum = s.count c := by
  induction s with
  | nil => simp [splitNl]
  | cons d rest ih =>
    by_cases hd : d = '\n'
    · subst hd
      simp only [splitNl, if_pos rfl, List.map_cons, List.sum_cons]
      rw [List.count_cons]
      have hb : ('\n' == c) = false := by
        simp [h, Ne.symm h]
      rw [hb]
      simpa using ih
    · simp only [splitNl, if_neg hd]
      cases hs : splitNl rest with
      | nil => exact absurd hs (splitNl_ne_nil rest)
      | cons l ls =>
        rw [hs] at ih
        simp only [List.map_cons, List.sum_cons] at ih ⊢
        rw [List.count_cons, List.count_cons]
        cases hdc : (d == c) <;> simp [hdc] <;> omega

theorem count_cons_ne (c d : Char) (h : c ≠ d) (l : JStr) :
    (d :: l).count c = l.count c := by
  rw [List.count_cons]
  have hb : (d == c) = false := by simp [Ne.symm h]
  rw [hb]
  simp

theorem stripLeadFrame_count (c : Char) (hbox : c ∉ boxChars)
    (hws : isJsWs c = false) (l : JStr) :
    (stripLeadFrame l).count c = l.count c := by
  cases l with
  | nil => rfl
  | cons d rest =>
    unfold stripLeadFrame
    dsimp only
    by_cases hd : d = '│' || d = '├' || d = '╰'
    · rw [if_pos hd]
      rw [count_dropWhile_ws c hws]
      have hne : c ≠ d := by
        rcases Bool.or_eq_true _ _ |>.mp hd with h1 | h2
        · rcases Bool.or_eq_true _ _ |>.mp h1 with ha | hb
          · simp only [decide_eq_true_eq] at ha
            subst ha
            exact fun he => hbox (he ▸ (by decide : ('│' : Char) ∈ boxChars))
          · simp only [decide_eq_true_eq] at hb
            subst hb
            exact fun he => hbox (he ▸ (by decide : ('├' : Char) ∈ boxChars))
        · simp only [decide_eq_true_eq] at h2
          subst h2
          exact fun he => hbox (he ▸ (by decide : ('╰' : Char) ∈ boxChars))
      rw [count_cons_ne c d hne]
    · rw [if_neg hd]

theorem stripTrailFrame_count (c : Char) (hbox : c ∉ boxChars)
    (hws : isJsWs c = false) (l : JStr) :
    (stripTrailFrame l).count c = l.count c := by
  unfold stripTrailFrame
  cases hr : l.reverse with
  | nil => simp [List.reverse_eq_nil_iff.mp hr]
  | cons d rest =>
    dsimp only
    by_cases hd : d = '│' || d = '┤' || d = '╮' || d = '╯'
    · rw [if_pos hd]
      have hne : c ≠ d := by
        intro he
        subst he
        apply hbox
        rcases Bool.or_eq_true _ _ |>.mp hd with h1 | h2
        · rcases Bool.or_eq_true _ _ |>.mp h1 with h3 | h4
          · rcases Bool.or_eq_true _ _ |>.mp h3 with h5 | h6
            · simp only [decide_eq_true_eq] at h5
              rw [h5]; decide
            · simp only [decide_eq_true_eq] at h6
              rw [h6]; decide
          · simp only [decide_eq_true_eq] at h4
            rw [h4]; decide
        · simp only [decide_eq_true_eq] at h2
          rw [h2]; decide
      have hl : l.count c = (d :: rest).count c := by
        rw [← List.count_reverse, hr]
      rw [hl, count_cons_ne c d hne, List.count_reverse,
        count_dropWhile_ws c hws]
    · rw [if_neg hd]

theorem isAllBox_count_zero (c : Char) (hbox : c ∉ boxChars) (l : JStr)
    (h : isAllBox l = true) : l.count c = 0 := by
  rw [List.count_eq_zero]
  intro hm
  unfold isAllBox at h
  rw [Bool.and_eq_true, List.all_eq_true] at h
  have h2 := h.2 c hm
  simp only [List.contains, List.elem_eq_mem, decide_eq_true_eq] at h2
  exact hbox h2

/-- Count preservation of rule 1 for characters outside the box class and
outside whitespace. -/
theorem removeBoxDrawing_count (c : Char) (hbox : c ∉ boxChars)
    (hws : isJsWs c = false) (s : JStr) :
    (removeBoxDrawing s).count c = s.count c := by
  have hnl : c ≠ '\n' := by
    intro he
    subst he
    simp [isJsWs] at hws
  unfold removeBoxDrawing
  rw [joinNl_count c hnl, ← splitNl_count c hnl s]
  generalize splitNl s = ls
  induction ls with
  | nil => rfl
  | cons l t ih =>
    cases hb : isAllBox l with
    | true =>
      simp only [List.filter_cons, hb, Bool.not_true, if_false, List.map_cons,
        List.sum_cons, Bool.false_eq_true]
      rw [isAllBox_count_zero c hbox l hb]
      simpa using ih
    | false =>
      simp only [List.filter_cons, hb, Bool.not_false, if_true, List.map_cons,
        List.sum_cons]
      rw [stripTrailFrame_count c hbox hws, stripLeadFrame_count c hbox hws, ih]

theorem stripLeadPipe_count (c : Char) (hp : c ≠ '|') (hws : isJsWs c = false)
    (l : JStr) : (stripLeadPipe l).count c = l.count c := by
  unfold stripLeadPipe
  split
  next rest heq =>
    have hl : l.count c = ('|' :: rest).count c := by
      rw [← count_dropWhile_ws c hws l, heq]
    rw [count_dropWhile_ws c hws, hl, count_cons_ne c '|' hp]
  next => rfl

theorem stripTrailPipe_count (c : Char) (hp : c ≠ '|') (hws : isJsWs c = false)
    (l : JStr) : (stripTrailPipe l).count c = l.count c := by
  unfold stripTrailPipe
  split
  next rest heq =>
    have hl : ('|' :: rest).count c = l.count c := by
      have h2 := count_dropWhile_ws c hws l.reverse
      rw [heq, List.count_reverse] at h2
      exact h2
    rw [List.count_reverse, count_dropWhile_ws c hws, ← hl,
      count_cons_ne c '|' hp]
  next => rfl

/-- Count preservation of rule 3 for non-pipe, non-whitespace characters. -/
theorem removePipeSymbols_count (c : Char) (hp : c ≠ '|')
    (hws : isJsWs c = false) (s : JStr) :
    (removePipeSymbols s).count c = s.count c := by
  have hnl : c ≠ '\n' := by
    intro he; subst he; simp [isJsWs] at hws
  unfold removePipeSymbols
  rw [joinNl_count c hnl, ← splitNl_count c hnl s]
  generalize splitNl s = ls
  induction ls with
  | nil => rfl
  | cons l t ih =>
    simp only [List.map_cons, List.sum_cons]
    rw [stripTrailPipe_count c hp hws, stripLeadPipe_count c hp hws, ih]

theorem collapseWsGo_count (c : Char) (hws : isJsWs c = false) (l : JStr) :
    ∀ b : Bool, (collapseWsGo b l).count c = l.count c := by
  induction l with
  | nil => intro b; rfl
  | cons d rest ih =>
    intro b
    unfold collapseWsGo
    by_cases hd : isJsWs d
    · rw [if_pos hd]
      have hcd : c ≠ d := by
        intro he; subst he; rw [hd] at hws; cases hws
      have hcs : c ≠ ' ' := by
        intro he; subst he; simp [isJsWs] at hws
      cases b with
      | true =>
        simp only [if_true]
        rw [ih true, count_cons_ne c d hcd]
      | false =>
        simp only [if_false, Bool.false_eq_true]
        rw [count_cons_ne c ' ' hcs, ih true, count_cons_ne c d hcd]
    · rw [if_neg hd]
      simp only [List.count_cons, ih false]

theorem collapseWs_count (c : Char) (hws : isJsWs c = false) (l : JStr) :
    (collapseWs l).count c = l.count c :=
  collapseWsGo_count c hws l false

/-- Count preservation of rule 4 for non-whitespace characters. -/
theorem fixIndentation_count (c : Char) (hws : isJsWs c = false) (s : JStr) :
    (fixIndentation s).count c = s.count c := by
  have hnl : c ≠ '\n' := by
    intro he; subst he; simp [isJsWs] at hws
  unfold fixIndentation
  rw [joinNl_count c hnl, ← splitNl_count c hnl s]
  generalize splitNl s = ls
  induction ls with
  | nil => rfl
  | cons l t ih =>
    simp only [List.map_cons, List.sum_cons]
    rw [count_trimStr c hws, collapseWs_count c hws, ih]

theorem toNat_ofNat_valid (n : Nat) (h : n.isValidChar) :
    (Char.ofNat n).toNat = n := by
  unfold Char.ofNat
  rw [dif_pos h]
  unfold Char.ofNatAux Char.toNat
  simp [UInt32.toNat, BitVec.toNat_ofNatLt]

theorem lowerAscii_eq_colon_iff (d : Char) : lowerAscii d = ':' ↔ d = ':' := by
  unfold lowerAscii
  split_ifs with hr
  · rw [Bool.and_eq_true, decide_eq_true_eq, decide_eq_true_eq] at hr
    have h1 : 65 ≤ d.toNat := Char.le_def.mp hr.1
    have h2 : d.toNat ≤ 90 := Char.le_def.mp hr.2
    constructor
    · intro he
      exfalso
      have hv : (d.toNat + 32).isValidChar := Or.inl (by omega)
      have h3 := congrArg Char.toNat he
      rw [toNat_ofNat_valid _ hv] at h3
      have h4 : (':' : Char).toNat = 58 := rfl
      omega
    · intro he
      exfalso
      subst he
      have h4 : (':' : Char).toNat = 58 := rfl
      omega
  · exact Iff.rfl

theorem ansiGo_id_of_no_bracket (s : JStr) (h : '[' ∉ s) :
    ansiGo AnsiSt.norm s = s ∧ ansiGo AnsiSt.esc s = '\x1b' :: s := by
  induction s with
  | nil => exact ⟨rfl, rfl⟩
  | cons d rest ih =>
    have hd : d ≠ '[' := fun he => h (he ▸ List.mem_cons_self _ _)
    have hrest : '[' ∉ rest := fun hm => h (List.mem_cons_of_mem _ hm)
    obtain ⟨ih1, ih2⟩ := ih hrest
    constructor
    · simp only [ansiGo]
      by_cases he : d = '\x1b'
      · subst he
        rw [if_pos rfl]
        exact ih2
      · rw [if_neg he, ih1]
    · simp only [ansiGo]
      rw [if_neg hd]
      by_cases he : d = '\x1b'
      · subst he
        rw [if_pos rfl, ih2]
      · rw [if_neg he, ih1]

theorem stripAnsi_id_of_no_bracket (s : JStr) (h : s.count '[' = 0) :
    stripAnsi s = s :=
  (ansiGo_id_of_no_bracket s (List.count_eq_zero.mp h)).1

theorem promptGo_count (c : Char) (hws : isJsWs c = false) (hdol : c ≠ '$')
    (hgt : c ≠ '>') (l : JStr) :
    ∀ sk fl : Bool, (promptGo sk fl l).count c = l.count c := by
  induction l with
  | nil => intro sk fl; rfl
  | cons d rest ih =>
    intro sk fl
    have htrig : (d = '$' ∨ d = '>') → c ≠ d := by
      rintro (rfl | rfl)
      · exact hdol
      · exact hgt
    have hwsne : isJsWs d = true → c ≠ d := by
      intro hd he
      subst he
      rw [hd] at hws
      cases hws
    simp only [promptGo]
    split_ifs with h1 h2 h3 h4
    · rw [ih, count_cons_ne c d (hwsne h2)]
    · rw [Bool.and_eq_true, Bool.or_eq_true, decide_eq_true_eq,
        decide_eq_true_eq] at h3
      rw [ih, count_cons_ne c d (htrig h3.2)]
    · simp only [List.count_cons, ih]
    · rw [Bool.and_eq_true, Bool.or_eq_true, decide_eq_true_eq,
        decide_eq_true_eq] at h4
      rw [ih, count_cons_ne c d (htrig h4.2)]
    · simp only [List.count_cons, ih]

theorem shellTail_ok (c : Char) (e : JStr) (h : shellTail c = some e) :
    e ≠ [] ∧ e.getLast? = some ':' ∧ ':' ∉ e.dropLast := by
  unfold shellTail at h
  split_ifs at h <;>
    (injection h with h2; subst h2; refine ⟨by decide, by decide, by decide⟩)

theorem shellGo_id_of_no_colon (s : JStr) (h : ':' ∉ s) :
    (∀ b : Bool, shellGo (ShSt.norm b) s = s) ∧
    (∀ (bf e : JStr), e ≠ [] → e.getLast? = some ':' → ':' ∉ e.dropLast →
      shellGo (ShSt.expect bf e) s = bf.reverse ++ s) := by
  induction s with
  | nil =>
    constructor
    · intro b; rfl
    · intro bf e _ _ _
      simp [shellGo]
  | cons d rest ih =>
    have hd : d ≠ ':' := fun he => h (he ▸ List.mem_cons_self _ _)
    have hrest : ':' ∉ rest := fun hm => h (List.mem_cons_of_mem _ hm)
    obtain ⟨ihn, ihe⟩ := ih hrest
    constructor
    · intro b
      cases b with
      | false =>
        simp only [shellGo, Bool.false_eq_true, if_false]
        rw [ihn]
      | true =>
        simp only [shellGo, if_true]
        cases hst : shellTail d with
        | none =>
          dsimp only
          rw [ihn]
        | some e =>
          dsimp only
          obtain ⟨he1, he2, he3⟩ := shellTail_ok d e hst
          rw [ihe [d] e he1 he2 he3]
          rfl
    · intro bf e he1 he2 he3
      cases e with
      | nil => exact absurd rfl he1
      | cons x e2 =>
        simp only [shellGo]
        by_cases hlx : lowerAscii d = x
        · rw [if_pos hlx]
          cases e2 with
          | nil =>
            exfalso
            have hx : x = ':' := by
              simpa using he2
            apply hd
            rw [← lowerAscii_eq_colon_iff]
            rw [hlx, hx]
          | cons y e3 =>
            simp only [List.isEmpty_cons, if_false, Bool.false_eq_true]
            have hg2 : (y :: e3).getLast? = some ':' := by
              rw [List.getLast?_cons_cons] at he2
              exact he2
            have hd2 : ':' ∉ (y :: e3).dropLast := by
              intro hm
              apply he3
              rw [List.dropLast_cons₂]
              exact List.mem_cons_of_mem x hm
            rw [ihe (d :: bf) (y :: e3) (by simp) hg2 hd2]
            simp [List.reverse_cons, List.append_assoc]
        · rw [if_neg hlx, ihn]
  
theorem stripShellLabels_id_of_no_colon (s : JStr) (h : s.count ':' = 0) :
    stripShellLabels s = s :=
  (shellGo_id_of_no_colon s (List.count_eq_zero.mp h)).1 true

/-- Count preservation of rule 5 under the bracket- and colon-freedom
hypotheses, for characters outside whitespace and the prompt markers. -/
theorem removeTerminalArtifacts_count (c : Char) (hws : isJsWs c = false)
    (hdol : c ≠ '$') (hgt : c ≠ '>') (s : JStr)
    (hbr : s.count '[' = 0) (hco : s.count ':' = 0) :
    (removeTerminalArtifacts s).count c = s.count c := by
  unfold removeTerminalArtifacts stripPrompts
  rw [stripAnsi_id_of_no_bracket s hbr]
  have hco2 : (promptGo false true s).count ':' = 0 := by
    rw [promptGo_count ':' (by decide) (by decide) (by decide)]
    exact hco
  rw [stripShellLabels_id_of_no_colon _ hco2]
  exact promptGo_count c hws hdol hgt s false true

theorem matchBody_false_of_no_bracket (b : JStr) (h : '[' ∉ b) :
    matchBody b = false := by
  unfold matchBody
  rw [List.any_eq_false]
  intro o _
  cases hp : (o ++ ['[']).isPrefixOf b with
  | false => simp [hp]
  | true =>
    exfalso
    apply h
    exact (List.isPrefixOf_iff_prefix.mp hp).subset (by simp)

theorem matchJsonLine_none_of_no_bracket (l : JStr) (h : '[' ∉ l) :
    matchJsonLine l = none := by
  have hb : matchBody l = false := matchBody_false_of_no_bracket l h
  unfold matchJsonLine
  dsimp only
  by_cases hts : tsLit.isPrefixOf (l.dropWhile isJsWs)
  · rw [if_pos hts]
    have hbody :
        matchBody (((l.dropWhile isJsWs).drop tsLit.length).dropWhile isJsWs) =
          false := by
      apply matchBody_false_of_no_bracket
      intro hm
      apply h
      have s1 := (List.dropWhile_sublist
        (l := (l.dropWhile isJsWs).drop tsLit.length) isJsWs).subset hm
      have s2 := (List.drop_sublist tsLit.length (l.dropWhile isJsWs)).subset s1
      exact (List.dropWhile_sublist isJsWs).subset s2
    rw [hbody, hb]
    simp
  · rw [if_neg hts, hb]
    simp

theorem cleanJsonLine_id_of_none (l : JStr) (h : matchJsonLine l = none) :
    cleanJsonLine l = l := by
  simp only [cleanJsonLine, h]

theorem segGo_id (f : JStr → JStr) (hf : ∀ l : JStr, '[' ∉ l → f l = l) :
    ∀ s acc : JStr, '[' ∉ s → '[' ∉ acc → segGo f acc s = acc.reverse ++ s := by
  intro s
  induction s with
  | nil =>
    intro acc _ hacc
    simp only [segGo]
    rw [hf acc.reverse (by simpa using hacc)]
    simp
  | cons d rest ih =>
    intro acc hs hacc
    have hrest : '[' ∉ rest := fun hm => hs (List.mem_cons_of_mem _ hm)
    have hd : d ≠ '[' := fun he => hs (he ▸ List.mem_cons_self _ _)
    simp only [segGo]
    by_cases hlt : isLineTerm d
    · rw [if_pos hlt, hf acc.reverse (by simpa using hacc),
        ih [] hrest (by simp)]
      simp
    · have hdacc : '[' ∉ d :: acc := by
        intro hm
        rcases List.mem_cons.mp hm with h1 | h2
        · exact hd h1.symm
        · exact hacc h2
      rw [if_neg hlt, ih (d :: acc) hrest hdacc]
      simp [List.reverse_cons, List.append_assoc]

/-- Rule 2 is the identity on texts containing no opening bracket. -/
theorem cleanJsonArrays_id_of_no_bracket (s : JStr) (h : s.count '[' = 0) :
    cleanJsonArrays s = s := by
  unfold cleanJsonArrays
  have h2 := segGo_id cleanJsonLine
    (fun l hl => cleanJsonLine_id_of_none l (matchJsonLine_none_of_no_bracket l hl))
    s [] (List.count_eq_zero.mp h) (by simp)
  simpa using h2

theorem blankFlush_count_zero (c : Char) (hws : isJsWs c = false) (buf : JStr)
    (h : ∀ x ∈ buf, isJsWs x = true) : (blankFlush buf).count c = 0 := by
  have hnl : c ≠ '\n' := by
    intro he; subst he; simp [isJsWs] at hws
  unfold blankFlush
  split_ifs with h3
  · rw [List.count_append, count_cons_ne c '\n' hnl, count_cons_ne c '\n' hnl]
    have hz1 : (buf.takeWhile (fun x => x ≠ '\n')).count c = 0 := by
      apply count_eq_zero_of_all_ws c hws
      intro x hx
      exact h x ((List.takeWhile_sublist _).subset hx)
    have hz2 : ((buf.reverse.takeWhile (fun x => x ≠ '\n')).reverse).count c = 0 := by
      rw [List.count_reverse]
      apply count_eq_zero_of_all_ws c hws
      intro x hx
      have := (List.takeWhile_sublist (l := buf.reverse) (fun x => x ≠ '\n')).subset hx
      exact h x (List.mem_reverse.mp this)
    omega
  · exact count_eq_zero_of_all_ws c hws buf h

theorem blankGo_count (c : Char) (hws : isJsWs c = false) (s : JStr) :
    ∀ buf : JStr, (∀ x ∈ buf, isJsWs x = true) →
      (blankGo buf s).count c = s.count c := by
  induction s with
  | nil =>
    intro buf hbuf
    show (blankFlush buf).count c = ([] : JStr).count c
    rw [blankFlush_count_zero c hws buf hbuf]
    rfl
  | cons d rest ih =>
    intro buf hbuf
    simp only [blankGo]
    by_cases hd : isJsWs d
    · have hbuf2 : ∀ x ∈ buf ++ [d], isJsWs x = true := by
        intro x hx
        rcases List.mem_append.mp hx with h1 | h2
        · exact hbuf x h1
        · rw [List.mem_singleton.mp h2]
          exact hd
      have hcd : c ≠ d := by
        intro he; subst he; rw [hd] at hws; cases hws
      rw [if_pos hd, ih (buf ++ [d]) hbuf2, count_cons_ne c d hcd]
    · rw [if_neg hd, List.count_append,
        blankFlush_count_zero c hws buf hbuf, List.count_cons,
        List.count_cons, ih [] (by simp)]
      omega

/-- Count preservation of rule 6 for non-whitespace characters. -/
theorem cleanExtraBlankLines_count (c : Char) (hws : isJsWs c = false)
    (s : JStr) : (cleanExtraBlankLines s).count c = s.count c :=
  blankGo_count c hws s [] (by simp)

/-- C5 counterexample: the whole input is a substring containing no
box-drawing characters, no ANSI escape characters and no whitespace, yet its
pipe character does not survive cleaning. -/
theorem c5_counterexample :
    ("|x".data : JStr).all
      (fun c => !boxChars.contains c && !isJsWs c && !(c = '\x1b')) = true ∧
    useTextCleaner (some ("|x".data)) = ("x".data) ∧
    ("x".data : JStr).count '|' = 0 :=
  ⟨by decide, by decide, by decide⟩

/-- The rule fold, spelled out as the composition of the seven rules. -/
theorem applyAllRules_unfold (s : JStr) :
    applyAllRules s =
      trimWhitespace (cleanExtraBlankLines (removeTerminalArtifacts
        (fixIndentation (removePipeSymbols (cleanJsonArrays
          (removeBoxDrawing s)))))) := by
  unfold applyAllRules cleaningRules
  simp only [List.foldl_cons, List.foldl_nil]

/-- The guard of the hook is only taken on empty or absent input. -/
theorem useTextCleaner_some_ne_nil (s : JStr) (hnil : s ≠ []) :
    useTextCleaner (some s) = applyAllRules s := by
  unfold useTextCleaner
  dsimp only
  rw [if_neg (by simpa [List.isEmpty_iff] using hnil)]

/-- C5 amended: on inputs containing no opening bracket and no colon, the
pipeline preserves the number of occurrences of every character that is not
in the box-drawing class, not whitespace, and not a pipe or prompt marker;
so such non-targeted content, including combining characters and
astral-plane code points, is never removed. -/
theorem c5_count_preservation (s : JStr) (hbr : s.count '[' = 0)
    (hco : s.count ':' = 0) (c : Char) (hbox : c ∉ boxChars)
    (hws : isJsWs c = false) (hp : c ≠ '|') (hdol : c ≠ '$') (hgt : c ≠ '>') :
    (useTextCleaner (some s)).count c = s.count c := by
  by_cases hnil : s = []
  · subst hnil; rfl
  · rw [useTextCleaner_some_ne_nil s hnil, applyAllRules_unfold]
    have hbr1 : (removeBoxDrawing s).count '[' = 0 := by
      rw [removeBoxDrawing_count '[' (by decide) (by decide)]
      exact hbr
    have hco1 : (removeBoxDrawing s).count ':' = 0 := by
      rw [removeBoxDrawing_count ':' (by decide) (by decide)]
      exact hco
    rw [cleanJsonArrays_id_of_no_bracket _ hbr1]
    have hbr3 : (removePipeSymbols (removeBoxDrawing s)).count '[' = 0 := by
      rw [removePipeSymbols_count '[' (by decide) (by decide)]
      exact hbr1
    have hco3 : (removePipeSymbols (removeBoxDrawing s)).count ':' = 0 := by
      rw [removePipeSymbols_count ':' (by decide) (by decide)]
      exact hco1
    have hbr4 :
        (fixIndentation (removePipeSymbols (removeBoxDrawing s))).count '[' = 0 := by
      rw [fixIndentation_count '[' (by decide)]
      exact hbr3
    have hco4 :
        (fixIndentation (removePipeSymbols (removeBoxDrawing s))).count ':' = 0 := by
      rw [fixIndentation_count ':' (by decide)]
      exact hco3
    unfold trimWhitespace
    rw [count_trimStr c hws, cleanExtraBlankLines_count c hws,
      removeTerminalArtifacts_count c hws hdol hgt _ hbr4 hco4,
      fixIndentation_count c hws, removePipeSymbols_count c hp hws,
      removeBoxDrawing_count c hbox hws]

/-- Witness: cleaning preserves the single occurrence of the astral-plane
globe character in a concrete input. -/
theorem c5_count_preservation_witness :
    (useTextCleaner (some ("a b🌍".data))).count '🌍' =
      ("a b🌍".data : JStr).count '🌍' :=
  c5_count_preservation ("a b🌍".data) (by decide) (by decide) '🌍'
    (by decide) (by decide) (by decide) (by decide) (by decide)

theorem joinNl_splitNl (s : JStr) : joinNl (splitNl s) = s := by
  induction s with
  | nil => rfl
  | cons c rest ih =>
    by_cases hc : c = '\n'
    · subst hc
      simp only [splitNl, if_pos rfl]
      cases hs : splitNl rest with
      | nil => exact absurd hs (splitNl_ne_nil rest)
      | cons l ls =>
        rw [hs] at ih
        show joinNl ([] :: l :: ls) = '\n' :: rest
        simp only [joinNl]
        rw [ih]
        rfl
    · simp only [splitNl, if_neg hc]
      cases hs : splitNl rest with
      | nil => exact absurd hs (splitNl_ne_nil rest)
      | cons l ls =>
        rw [hs] at ih
        cases ls with
        | nil =>
          show joinNl [c :: l] = c :: rest
          simp only [joinNl] at ih ⊢
          rw [ih]
        | cons l2 ls2 =>
          show joinNl ((c :: l) :: l2 :: ls2) = c :: rest
          simp only [joinNl] at ih ⊢
          rw [← ih]
          rfl

theorem stripLeadFrame_id (l : JStr) (h : isLeadFrame l.head? = false) :
    stripLeadFrame l = l := by
  cases l with
  | nil => rfl
  | cons c rest =>
    simp only [List.head?_cons, isLeadFrame] at h
    simp only [stripLeadFrame]
    rw [if_neg (by rw [h]; exact fun hc => nomatch hc)]

theorem stripTrailFrame_id (l : JStr) (h : isTrailFrame l.getLast? = false) :
    stripTrailFrame l = l := by
  unfold stripTrailFrame
  cases hr : l.reverse with
  | nil => simp [List.reverse_eq_nil_iff.mp hr]
  | cons c rest =>
    dsimp only
    have hh : l.getLast? = some c := by
      rw [← List.head?_reverse, hr]
      rfl
    rw [hh] at h
    simp only [isTrailFrame] at h
    rw [if_neg (by rw [h]; exact fun hc => nomatch hc)]

/-- Rule 1 is the identity on texts whose lines are all box-rule safe. -/
theorem removeBoxDrawing_id (t : JStr)
    (h : (splitNl t).all boxLineOk = true) : removeBoxDrawing t = t := by
  unfold removeBoxDrawing
  rw [List.all_eq_true] at h
  have hfil : (splitNl t).filter (fun l => !isAllBox l) = splitNl t := by
    rw [List.filter_eq_self]
    intro l hl
    have := h l hl
    unfold boxLineOk at this
    rw [Bool.and_eq_true, Bool.and_eq_true] at this
    exact this.1.1
  rw [hfil]
  have hmap : (splitNl t).map (fun l => stripTrailFrame (stripLeadFrame l)) =
      splitNl t := by
    have : ∀ l ∈ splitNl t,
        stripTrailFrame (stripLeadFrame l) = id l := by
      intro l hl
      have hb := h l hl
      unfold boxLineOk at hb
      rw [Bool.and_eq_true, Bool.and_eq_true] at hb
      rw [stripLeadFrame_id l (by simpa using hb.1.2),
        stripTrailFrame_id l (by simpa using hb.2)]
      rfl
    rw [List.map_congr_left this, List.map_id]
  rw [hmap, joinNl_splitNl]

theorem stripLeadPipe_id (l : JStr)
    (h : ((l.dropWhile isJsWs).head? != some '|') = true) :
    stripLeadPipe l = l := by
  unfold stripLeadPipe
  split
  next rest heq =>
    exfalso
    rw [heq] at h
    simp at h
  next => rfl

theorem stripTrailPipe_id (l : JStr)
    (h : ((l.reverse.dropWhile isJsWs).head? != some '|') = true) :
    stripTrailPipe l = l := by
  unfold stripTrailPipe
  split
  next rest heq =>
    exfalso
    rw [heq] at h
    simp at h
  next => rfl

/-- Rule 3 is the identity on texts whose lines are all pipe-rule safe. -/
theorem removePipeSymbols_id (t : JStr)
    (h : (splitNl t).all pipeLineOk = true) : removePipeSymbols t = t := by
  unfold removePipeSymbols
  rw [List.all_eq_true] at h
  have hmap : (splitNl t).map (fun l => stripTrailPipe (stripLeadPipe l)) =
      splitNl t := by
    have : ∀ l ∈ splitNl t, stripTrailPipe (stripLeadPipe l) = id l := by
      intro l hl
      have hp := h l hl
      unfold pipeLineOk at hp
      rw [Bool.and_eq_true] at hp
      rw [stripLeadPipe_id l hp.1, stripTrailPipe_id l hp.2]
      rfl
    rw [List.map_congr_left this, List.map_id]
  rw [hmap, joinNl_splitNl]

theorem collapseWsGo_id (l : JStr)
    (hsp : l.all (fun c => !isJsWs c || c = ' ') = true)
    (hnd : noDoubleSpace l = true) :
    collapseWsGo false l = l ∧
      (l.head? ≠ some ' ' → collapseWsGo true l = l) := by
  induction l with
  | nil => exact ⟨rfl, fun _ => rfl⟩
  | cons c rest ih =>
    rw [List.all_cons, Bool.and_eq_true] at hsp
    have hnd2 : noDoubleSpace rest = true := by
      cases rest with
      | nil => rfl
      | cons d r2 =>
        unfold noDoubleSpace at hnd
        rw [Bool.and_eq_true] at hnd
        exact hnd.2
    obtain ⟨ih1, ih2⟩ := ih hsp.2 hnd2
    by_cases hc : isJsWs c
    · have hcs : c = ' ' := by
        have h1 := hsp.1
        rw [hc] at h1
        simpa using h1
      subst hcs
      have hrest : rest.head? ≠ some ' ' := by
        cases rest with
        | nil => simp
        | cons d r2 =>
          unfold noDoubleSpace at hnd
          rw [Bool.and_eq_true] at hnd
          have h1 := hnd.1
          simp only [List.head?_cons, ne_eq, Option.some.injEq]
          intro hds
          rw [hds] at h1
          simp at h1
      constructor
      · simp only [collapseWsGo, if_pos hc, Bool.false_eq_true, if_false]
        rw [ih2 hrest]
      · intro hh
        exfalso
        exact hh rfl
    · constructor
      · simp only [collapseWsGo, if_neg hc]
        rw [ih1]
      · intro _
        simp only [collapseWsGo, if_neg hc]
        rw [ih1]

theorem dropWhile_id_of_headNonWs (t : JStr) (h : headNonWs t = true) :
    t.dropWhile isJsWs = t := by
  cases t with
  | nil => rfl
  | cons c rest =>
    unfold headNonWs at h
    simp only [List.head?_cons] at h
    rw [List.dropWhile_cons_of_neg (by simpa using h)]

theorem trimStr_id (t : JStr) (h1 : headNonWs t = true)
    (h2 : headNonWs t.reverse = true) : trimStr t = t := by
  unfold trimStr
  rw [dropWhile_id_of_headNonWs t h1, dropWhile_id_of_headNonWs t.reverse h2,
    List.reverse_reverse]

theorem lineNormal_headNonWs (l : JStr) (h : lineNormal l = true) :
    headNonWs l = true ∧ headNonWs l.reverse = true := by
  unfold lineNormal at h
  rw [Bool.and_eq_true, Bool.and_eq_true, Bool.and_eq_true] at h
  obtain ⟨⟨⟨hall, _⟩, hhd⟩, hlast⟩ := h
  constructor
  · unfold headNonWs
    cases hl : l.head? with
    | none => rfl
    | some c =>
      have hc : c ∈ l := List.mem_of_mem_head? hl
      rw [List.all_eq_true] at hall
      have := hall c hc
      cases hw : isJsWs c with
      | false => simp [hw]
      | true =>
        exfalso
        rw [hw] at this
        have hcs : c = ' ' := by simpa using this
        rw [hl, hcs] at hhd
        simp at hhd
  · unfold headNonWs
    cases hl : l.reverse.head? with
    | none => rfl
    | some c =>
      have hc : c ∈ l := by
        have h4 := List.mem_of_mem_head? hl
        exact List.mem_reverse.mp h4
      rw [List.all_eq_true] at hall
      have h3 := hall c hc
      cases hw : isJsWs c with
      | false => simp [hw]
      | true =>
        exfalso
        rw [hw] at h3
        have hcs : c = ' ' := by simpa using h3
        rw [List.head?_reverse] at hl
        rw [hl, hcs] at hlast
        simp at hlast

/-- Rule 4 is the identity on texts whose lines are already normalised. -/
theorem fixIndentation_id (t : JStr)
    (h : (splitNl t).all lineNormal = true) : fixIndentation t = t := by
  unfold fixIndentation
  rw [List.all_eq_true] at h
  have hmap : (splitNl t).map (fun l => trimStr (collapseWs l)) = splitNl t := by
    have h2 : ∀ l ∈ splitNl t, trimStr (collapseWs l) = id l := by
      intro l hl
      have hn := h l hl
      have hn2 := hn
      unfold lineNormal at hn2
      rw [Bool.and_eq_true, Bool.and_eq_true, Bool.and_eq_true] at hn2
      have hcw : collapseWs l = l :=
        (collapseWsGo_id l hn2.1.1.1 hn2.1.1.2).1
      unfold collapseWs at hcw ⊢
      rw [hcw]
      obtain ⟨hh1, hh2⟩ := lineNormal_headNonWs l hn
      rw [trimStr_id l hh1 hh2]
      rfl
    rw [List.map_congr_left h2, List.map_id]
  rw [hmap, joinNl_splitNl]

theorem ansiGo_norm_id_of_no_esc (s : JStr)
    (h : s.all (fun c => !(c = '\x1b')) = true) :
    ansiGo AnsiSt.norm s = s := by
  induction s with
  | nil => rfl
  | cons c rest ih =>
    rw [List.all_cons, Bool.and_eq_true] at h
    simp only [ansiGo]
    rw [if_neg (by simpa using h.1), ih h.2]

theorem promptGo_id (s : JStr) :
    ∀ fl, promptCheck fl s = true → promptGo false fl s = s := by
  induction s with
  | nil => intro fl _; rfl
  | cons c rest ih =>
    intro fl h
    unfold promptCheck at h
    rw [Bool.and_eq_true] at h
    have hcond : (fl && (c = '$' || c = '>')) = false := by
      cases fl with
      | false => rfl
      | true =>
        have h1 := h.1
        rw [if_pos rfl] at h1
        rw [Bool.true_and]
        simpa using h1
    simp only [promptGo, Bool.false_eq_true, if_false]
    rw [hcond]
    simp only [Bool.false_eq_true, if_false]
    rw [ih _ h.2]

theorem shellTail_not_term (c : Char) (e : JStr) (h : shellTail c = some e) :
    isLineTerm c = false := by
  cases ht : isLineTerm c with
  | false => rfl
  | true =>
    exfalso
    unfold isLineTerm at ht
    have h4 : ((c = '\n' ∨ c = '\r') ∨ c = ' ') ∨ c = ' ' := by
      simpa using ht
    rcases h4 with ((rfl | rfl) | rfl) | rfl
    · rw [(by decide : shellTail '\n' = none)] at h
      exact Option.noConfusion h
    · rw [(by decide : shellTail '\r' = none)] at h
      exact Option.noConfusion h
    · rw [(by decide : shellTail ' ' = none)] at h
      exact Option.noConfusion h
    · rw [(by decide : shellTail ' ' = none)] at h
      exact Option.noConfusion h

theorem shellTail_all_not_term (c : Char) (e : JStr) (h : shellTail c = some e) :
    e.all (fun x => !isLineTerm x) = true := by
  unfold shellTail at h
  split_ifs at h <;> (injection h with h2; subst h2; decide)

theorem lowerAscii_lineTerm (d : Char) (h : isLineTerm d = true) :
    lowerAscii d = d := by
  unfold isLineTerm at h
  have h4 : ((d = '\n' ∨ d = '\r') ∨ d = ' ') ∨ d = ' ' := by
    simpa using h
  rcases h4 with ((rfl | rfl) | rfl) | rfl <;> decide

theorem shellGo_id_of_check (s : JStr) :
    (∀ fl, shellCheck fl s = true → shellGo (ShSt.norm fl) s = s) ∧
    (∀ B E : JStr, E ≠ [] → E.all (fun x => !isLineTerm x) = true →
      E.isPrefixOf (s.map lowerAscii) = false → shellCheck false s = true →
      shellGo (ShSt.expect B E) s = B.reverse ++ s) := by
  induction s with
  | nil =>
    constructor
    · intro fl _; rfl
    · intro B E _ _ _ _
      simp [shellGo]
  | cons d rest ih =>
    obtain ⟨ihn, ihe⟩ := ih
    constructor
    · intro fl h
      unfold shellCheck at h
      rw [Bool.and_eq_true] at h
      cases fl with
      | false =>
        simp only [shellGo, Bool.false_eq_true, if_false]
        rw [ihn _ h.2]
      | true =>
        have hhit : shellHit (d :: rest) = false := by
          have h1 := h.1
          rw [if_pos rfl] at h1
          simpa using h1
        simp only [shellGo, if_true]
        cases hst : shellTail d with
        | none =>
          dsimp only
          rw [ihn _ h.2]
        | some e =>
          dsimp only
          have hterm : isLineTerm d = false := shellTail_not_term d e hst
          obtain ⟨he1, _, _⟩ := shellTail_ok d e hst
          have hall := shellTail_all_not_term d e hst
          have hpre : e.isPrefixOf (rest.map lowerAscii) = false := by
            unfold shellHit at hhit
            dsimp only at hhit
            rw [hst] at hhit
            exact hhit
          have hchk : shellCheck false rest = true := by
            rw [hterm] at h
            exact h.2
          rw [ihe [d] e he1 hall hpre hchk]
          rfl
    · intro B E he1 hall hp hchk
      cases E with
      | nil => exact absurd rfl he1
      | cons x e2 =>
        unfold shellCheck at hchk
        rw [Bool.and_eq_true] at hchk
        simp only [shellGo]
        by_cases hlx : lowerAscii d = x
        · rw [if_pos hlx]
          have hp2 : e2.isPrefixOf (rest.map lowerAscii) = false := by
            rw [List.map_cons] at hp
            rw [(rfl : ((x :: e2).isPrefixOf
              (lowerAscii d :: rest.map lowerAscii)) =
              ((x == lowerAscii d) && e2.isPrefixOf (rest.map lowerAscii)))] at hp
            simpa [hlx] using hp
          have hterm2 : isLineTerm d = false := by
            cases hterm : isLineTerm d with
            | false => rfl
            | true =>
              exfalso
              have hld : lowerAscii d = d := lowerAscii_lineTerm d hterm
              have hx : x = d := by rw [← hlx, hld]
              rw [List.all_cons, Bool.and_eq_true] at hall
              have h5 := hall.1
              rw [hx, hterm] at h5
              simp at h5
          cases e2 with
          | nil =>
            exfalso
            simp at hp2
          | cons y e3 =>
            simp only [List.isEmpty_cons, Bool.false_eq_true, if_false]
            have hall2 : (y :: e3).all (fun x => !isLineTerm x) = true := by
              rw [List.all_cons, Bool.and_eq_true] at hall
              exact hall.2
            have hchk2 : shellCheck false rest = true := by
              rw [hterm2] at hchk
              exact hchk.2
            rw [ihe (d :: B) (y :: e3) (by simp) hall2 hp2 hchk2]
            simp [List.reverse_cons, List.append_assoc]
        · rw [if_neg hlx]
          rw [ihn _ hchk.2]

theorem stripShellLabels_id_of_check (t : JStr)
    (h : shellCheck true t = true) : stripShellLabels t = t :=
  (shellGo_id_of_check t).1 true h

theorem nbr_head_le (s : JStr) (h : noBlankRuns s = true) :
    countNl (s.takeWhile isJsWs) ≤ 2 := by
  induction s with
  | nil => simp [countNl]
  | cons c rest ih =>
    unfold noBlankRuns at h
    rw [Bool.and_eq_true] at h
    by_cases hc : c = '\n'
    · have h1 := h.1
      rw [if_pos hc] at h1
      exact of_decide_eq_true h1
    · by_cases hws : isJsWs c
      · rw [List.takeWhile_cons_of_pos hws]
        unfold countNl
        rw [count_cons_ne '\n' c (fun he => hc he.symm)]
        exact ih h.2
      · rw [List.takeWhile_cons_of_neg hws]
        simp [countNl]

theorem blankGo_id (s : JStr) :
    ∀ buf : JStr, countNl (buf ++ s.takeWhile isJsWs) ≤ 2 →
      noBlankRuns s = true → blankGo buf s = buf ++ s := by
  induction s with
  | nil =>
    intro buf hle _
    show blankFlush buf = buf ++ []
    rw [List.append_nil]
    unfold blankFlush
    rw [if_neg]
    intro h3
    rw [List.takeWhile_nil, List.append_nil] at hle
    omega
  | cons d rest ih =>
    intro buf hle hnbr
    have hnbr2 : noBlankRuns rest = true := by
      unfold noBlankRuns at hnbr
      rw [Bool.and_eq_true] at hnbr
      exact hnbr.2
    simp only [blankGo]
    by_cases hd : isJsWs d
    · rw [if_pos hd]
      have hle2 : countNl ((buf ++ [d]) ++ rest.takeWhile isJsWs) ≤ 2 := by
        rw [List.takeWhile_cons_of_pos hd] at hle
        unfold countNl at hle ⊢
        simp only [List.count_append, List.count_cons, List.count_nil] at hle ⊢
        omega
      rw [ih (buf ++ [d]) hle2 hnbr2, List.append_assoc]
      rfl
    · rw [if_neg hd]
      have hbufle : countNl buf ≤ 2 := by
        unfold countNl at hle ⊢
        rw [List.count_append] at hle
        omega
      have hfl : blankFlush buf = buf := by
        unfold blankFlush
        rw [if_neg (by omega)]
      rw [hfl, ih [] (by simpa using nbr_head_le rest hnbr2) hnbr2]
      rfl

/-- Rule 6 is the identity on texts without long blank-line runs. -/
theorem cleanExtraBlankLines_id (t : JStr) (h : noBlankRuns t = true) :
    cleanExtraBlankLines t = t := by
  unfold cleanExtraBlankLines
  have h2 := blankGo_id t [] (by simpa using nbr_head_le t h) h
  simpa using h2

theorem segGo_id_of_all (f : JStr → JStr) (p : JStr → Bool)
    (hf : ∀ l : JStr, p l = true → f l = l) :
    ∀ s acc : JStr, segAll p acc s = true → segGo f acc s = acc.reverse ++ s := by
  intro s
  induction s with
  | nil =>
    intro acc h
    simp only [segAll] at h
    simp only [segGo]
    rw [hf _ h]
    simp
  | cons d rest ih =>
    intro acc h
    simp only [segAll] at h
    simp only [segGo]
    by_cases hlt : isLineTerm d
    · rw [if_pos hlt]
      rw [if_pos hlt, Bool.and_eq_true] at h
      rw [hf _ h.1, ih [] h.2]
      simp
    · rw [if_neg hlt]
      rw [if_neg hlt] at h
      rw [ih (d :: acc) h]
      simp [List.reverse_cons, List.append_assoc]

/-- Rule 2 is the identity when no segment matches the pattern. -/
theorem cleanJsonArrays_id_of_segAll (t : JStr)
    (h : segAll (fun l => (matchJsonLine l).isNone) [] t = true) :
    cleanJsonArrays t = t := by
  unfold cleanJsonArrays
  have h2 := segGo_id_of_all cleanJsonLine (fun l => (matchJsonLine l).isNone)
    (fun l hl => cleanJsonLine_id_of_none l (Option.isNone_iff_eq_none.mp hl))
    t [] h
  simpa using h2

/-- Every rule fixes a steady text, so the whole fold does. -/
theorem steadyFix (t : JStr) (h : steady t = true) : applyAllRules t = t := by
  unfold steady at h
  rw [Bool.and_eq_true, Bool.and_eq_true, Bool.and_eq_true, Bool.and_eq_true,
    Bool.and_eq_true, Bool.and_eq_true, Bool.and_eq_true, Bool.and_eq_true,
    Bool.and_eq_true] at h
  obtain ⟨⟨⟨⟨⟨⟨⟨⟨⟨hbox, hjson⟩, hpipe⟩, hnorm⟩, hesc⟩, hpr⟩, hsh⟩, hnbr⟩,
    hh1⟩, hh2⟩ := h
  rw [applyAllRules_unfold]
  rw [removeBoxDrawing_id t hbox, cleanJsonArrays_id_of_segAll t hjson,
    removePipeSymbols_id t hpipe, fixIndentation_id t hnorm]
  unfold removeTerminalArtifacts stripShellLabels stripPrompts stripAnsi
    trimWhitespace
  rw [ansiGo_norm_id_of_no_esc t hesc, promptGo_id t true hpr,
    (shellGo_id_of_check t).1 true hsh, cleanExtraBlankLines_id t hnbr,
    trimStr_id t hh1 hh2]

/-- C2 counterexample: the input dollar-dollar-foo has no line matched by
the JSON-array pattern, yet cleaning it is not idempotent: it cleans to
dollar-foo, which cleans again to foo. -/
theorem c2_counterexample :
    segAll (fun l => (matchJsonLine l).isNone) [] ("$ $ foo".data) = true ∧
    useTextCleaner (some ("$ $ foo".data)) = ("$ foo".data) ∧
    useTextCleaner (some (useTextCleaner (some ("$ $ foo".data)))) =
      ("foo".data) ∧
    ("$ foo".data : JStr) ≠ ("foo".data) :=
  ⟨by decide, by decide, by decide, by decide⟩

/-- C2 amended: the pipeline is idempotent on every input whose cleaned
output is in the steady state — no box-rule, JSON-pattern, pipe,
whitespace, ANSI, prompt, shell-label or blank-run artifact remains —
re-running the full rule sequence then returns the cleaned output
unchanged. -/
theorem c2_idempotent_on_steady (s : JStr)
    (h : steady (useTextCleaner (some s)) = true) :
    useTextCleaner (some (useTextCleaner (some s))) =
      useTextCleaner (some s) := by
  by_cases ht : useTextCleaner (some s) = []
  · rw [ht]
    rfl
  · rw [useTextCleaner_some_ne_nil _ ht]
    exact steadyFix _ h

/-- Witness: a framed line followed by blank lines and a prompt cleans to a
steady text, and re-cleaning leaves it unchanged. -/
theorem c2_idempotent_on_steady_witness :
    useTextCleaner (some (useTextCleaner (some ("│ foo │\n\n\n$ bar".data)))) =
      useTextCleaner (some ("│ foo │\n\n\n$ bar".data)) :=
  c2_idempotent_on_steady ("│ foo │\n\n\n$ bar".data) (by decide)
